import Mathlib

/-!
Verification development for the chunksum repository (xyb/chunksum).

Bytes are modelled as `List Nat`.  The external FastCDC splitter
(`fastcdc` library, invoked by `src/chunksum/cdc.py` via
`get_chunk_func`) chooses chunk boundaries deterministically from the
bytes of the current chunk only (rolling hash over the bytes since the
last boundary, plus min/avg/max size limits that are functions of the
offset since the last boundary); at end of input the remaining bytes
are emitted as a final chunk ("fat" mode, no embedded hash).  We model
it by an arbitrary boundary predicate `cut : List Nat → Bool` applied
to every non-empty prefix of the current chunk: the splitter scans the
input left to right and closes a chunk as soon as `cut` holds of the
bytes accumulated since the previous boundary.
-/

namespace Chunksum

abbrev Bytes := List Nat

/-- One left-to-right scan of the FastCDC splitter: `acc` holds the bytes of
the current (unfinished) chunk; a chunk is closed as soon as `cut` accepts
the accumulated bytes; at end of input the non-empty remainder is emitted. -/
def cdcSplitAux (cut : Bytes → Bool) (acc : Bytes) : Bytes → List Bytes
  | [] => if acc = [] then [] else [acc]
  | b :: rest =>
      if cut (acc ++ [b]) then (acc ++ [b]) :: cdcSplitAux cut [] rest
      else cdcSplitAux cut (acc ++ [b]) rest

/-- The chunk stream the FastCDC splitter produces for a whole buffer
(`fastcdc(io.BytesIO(data), ...)` in `cdc.py`). -/
def cdcSplit (cut : Bytes → Bool) (x : Bytes) : List Bytes :=
  cdcSplitAux cut [] x

/-- The chunk sequence produced by feeding buffers one by one to a
`Chunker` (`cdc.py`) the way `compute_file` (`chunksum.py`) does: for each
buffer, `update` re-splits `tail ++ buffer` and the `chunks` property yields
every produced chunk except the last, which is retained as the new tail;
at EOF a non-empty tail is emitted verbatim (`if chunker.tail:`). -/
def feedBuffers (cut : Bytes → Bool) : Bytes → List Bytes → List Bytes
  | t, [] => if t = [] then [] else [t]
  | t, m :: ms =>
      let cs := cdcSplit cut (t ++ m)
      cs.dropLast ++ feedBuffers cut (cs.getLast?.getD []) ms

/-- A "clean" accumulator: no non-empty prefix of `acc` (continued from
`pre`) triggers the boundary predicate. -/
def cleanFrom (cut : Bytes → Bool) (pre acc : Bytes) : Prop :=
  ∀ k, 1 ≤ k → k ≤ acc.length → cut (pre ++ acc.take k) = false

/-!
Model of the live `Chunker` object of `src/chunksum/cdc.py`.

Python state: `self._tail` is `bytes` or `None` (`None` arises when the
`chunks` generator runs over an empty or exhausted `_iter`, because
`self._tail = prev` with `prev` never set), and `self._iter` is `None`
(fresh object) or a generator whose remaining items we model as the list
of pending chunks (`some []` is an exhausted generator, which is still
truthy for the `if not self._iter` test). -/

structure Chunker where
  tail : Option Bytes
  iter : Option (List Bytes)
deriving DecidableEq, Repr

/-- `Chunker.__init__`: `_tail = b""`, `_iter = None`. -/
def chunkerInit : Chunker := ⟨some [], none⟩

/-- `Chunker.update`: re-splits `self._tail + message` into a fresh pending
chunk stream; `self._tail` itself is not modified here.  Returns `none`
when `self._tail` is `None` (Python would raise `TypeError` on
`None + message`). -/
def chunkerUpdate (cut : Bytes → Bool) (c : Chunker) (m : Bytes) : Option Chunker :=
  c.tail.map (fun t => { tail := c.tail, iter := some (cdcSplit cut (t ++ m)) })

/-- Full iteration of the `chunks` generator property: with no prior
`update` (`_iter is None`) it yields nothing and changes nothing; otherwise
it yields every pending chunk but the last, retains the last as `_tail`
(`None` when the pending stream is empty), and leaves `_iter` exhausted. -/
def chunkerReadChunks (c : Chunker) : List Bytes × Chunker :=
  match c.iter with
  | none => ([], c)
  | some pending => (pending.dropLast, { tail := pending.getLast?, iter := some [] })

/-- `Chunker.reset`: returns the current tail and replaces it by `b""`. -/
def chunkerReset (c : Chunker) : Option Bytes × Chunker :=
  (c.tail, { c with tail := some [] })

/-- Operations a client can perform on a `Chunker`. -/
inductive COp where
  | update (m : Bytes)
  | read
  | reset
deriving DecidableEq, Repr

/-- Run a sequence of operations from a state, tracking as ghost state the
chunks yielded by `chunks` and the bytes supplied through `update` since
the last `reset` (both cleared by `reset`, matching the bookkeeping of the
spec's invariant).  `none` models an uncaught Python `TypeError`. -/
def runOps (cut : Bytes → Bool) :
    Chunker × List Bytes × Bytes → List COp → Option (Chunker × List Bytes × Bytes)
  | st, [] => some st
  | (c, ys, sup), .update m :: ops =>
      match chunkerUpdate cut c m with
      | none => none
      | some c' => runOps cut (c', ys, sup ++ m) ops
  | (c, ys, sup), .read :: ops =>
      let (newYs, c') := chunkerReadChunks c
      runOps cut (c', ys ++ newYs, sup) ops
  | (c, _, _), .reset :: ops =>
      runOps cut ((chunkerReset c).2, [], []) ops

/-- The canonical usage step of `compute_file`: one `update` immediately
followed by a full iteration of `chunks`. -/
def chunkerFeed (cut : Bytes → Bool) (c : Chunker) (m : Bytes) :
    Option (Chunker × List Bytes) :=
  (chunkerUpdate cut c m).map (fun c' =>
    let (ys, c'') := chunkerReadChunks c'
    (c'', ys))

/-- Feed a sequence of buffers through `update`-then-read steps, collecting
all yielded chunks. -/
def chunkerFeedAll (cut : Bytes → Bool) :
    Chunker → List Bytes → Option (Chunker × List Bytes)
  | c, [] => some (c, [])
  | c, m :: ms =>
      match chunkerFeed cut c m with
      | none => none
      | some (c', ys) =>
          match chunkerFeedAll cut c' ms with
          | none => none
          | some (c'', ys') => some (c'', ys ++ ys')

/-- The loop body of `compute_file` (`chunksum.py`) at the level of one
buffer list: for each buffer, `chunker.update(data)` then hash every chunk
yielded by `chunker.chunks` (via `hash_digest_size`, which returns the pair
`(digest, length)`); at EOF a non-empty tail is hashed and appended.
`H` abstracts the digest function selected by `get_hasher(alg_name[4:])`. -/
def computeFileBufs (cut : Bytes → Bool) (H : Bytes → Bytes) :
    Bytes → List Bytes → List (Bytes × Nat)
  | t, [] => if t = [] then [] else [(H t, t.length)]
  | t, m :: ms =>
      let cs := cdcSplit cut (t ++ m)
      cs.dropLast.map (fun c => (H c, c.length)) ++
        computeFileBufs cut H (cs.getLast?.getD []) ms

/-- `buffer_size = 4 * 1024 * 1024` in `compute_file`. -/
def bufferSize : Nat := 4 * 1024 * 1024

/-- `iter_file_content`: repeated `file.read(buffer_size)` until an empty
read; every yielded buffer is non-empty and their concatenation is the
stream content. -/
def toBuffers (x : Bytes) : List Bytes :=
  if x = [] then [] else x.take bufferSize :: toBuffers (x.drop bufferSize)
termination_by x.length
decreasing_by
  simp only [List.length_drop]
  have : x.length ≠ 0 := by
    intro h
    exact (by assumption : ¬ x = []) (List.eq_nil_of_length_eq_zero h)
  simp [bufferSize]
  omega

/-- `compute_file(file, alg_name)` on a stream holding `content`: the
ordered list of `(digest, length)` pairs. -/
def compute_file (cut : Bytes → Bool) (H : Bytes → Bytes) (content : Bytes) :
    List (Bytes × Nat) :=
  computeFileBufs cut H [] (toBuffers content)

/-!
String layer: models of the Python string primitives used by
`chunksum.py` (`format_a_result`) and `parser.py` (`parse_line`,
`parse_chunks`, `parse_chunksums`).  Strings are `List Char`.
-/

/-- Python `s.split('  ')`: greedy left-to-right scan for non-overlapping
occurrences of the two-space separator. -/
def pySplitSS : List Char → List (List Char)
  | [] => [[]]
  | [c] => [[c]]
  | c1 :: c2 :: rest =>
      if c1 = ' ' ∧ c2 = ' ' then [] :: pySplitSS rest
      else
        match pySplitSS (c2 :: rest) with
        | [] => [[c1]]
        | t :: ts => (c1 :: t) :: ts

/-- Python `'  '.join(items)`. -/
def pyJoinSS : List (List Char) → List Char
  | [] => []
  | [x] => x
  | x :: y :: ys => x ++ ' ' :: ' ' :: pyJoinSS (y :: ys)

/-- Python `s.split(sep)` for a one-character separator. -/
def pySplitOn1 (sep : Char) : List Char → List (List Char)
  | [] => [[]]
  | c :: rest =>
      if c = sep then [] :: pySplitOn1 sep rest
      else
        match pySplitOn1 sep rest with
        | [] => [[c]]
        | t :: ts => (c :: t) :: ts

/-- Python `sep.join(items)` for a one-character separator. -/
def pyJoin1 (sep : Char) : List (List Char) → List Char
  | [] => []
  | [x] => x
  | x :: y :: ys => x ++ sep :: pyJoin1 sep (y :: ys)

/-- Lower-case hexadecimal digit. -/
def hexDigitChar (n : Nat) : Char :=
  "0123456789abcdef".toList.getD n '0'

/-- Python `bytes.hex()`: two lower-case hex digits per byte. -/
def hexEncode (bs : Bytes) : List Char :=
  (bs.map (fun b => [hexDigitChar (b / 16 % 16), hexDigitChar (b % 16)])).flatten

/-- One decimal digit character. -/
def decDigitChar (n : Nat) : Char :=
  match n with
  | 0 => '0' | 1 => '1' | 2 => '2' | 3 => '3' | 4 => '4'
  | 5 => '5' | 6 => '6' | 7 => '7' | 8 => '8' | _ => '9'

/-- Accumulator loop of the decimal rendering of a natural number. -/
def natToCharsGo (n : Nat) (acc : List Char) : List Char :=
  if n = 0 then acc else natToCharsGo (n / 10) (decDigitChar (n % 10) :: acc)
termination_by n
decreasing_by exact Nat.div_lt_self (Nat.pos_of_ne_zero (by assumption)) (by omega)

/-- Python `str(n)` for a natural number. -/
def natToChars (n : Nat) : List Char :=
  if n = 0 then ['0'] else natToCharsGo n []

/-- Numeric value of one decimal digit character. -/
def decDigitVal (c : Char) : Nat := c.toNat - 48

/-- Value of a decimal digit string (left fold). -/
def digitsVal (s : List Char) : Nat :=
  s.foldl (fun a c => a * 10 + decDigitVal c) 0

/-- Python `int(s)` restricted to plain decimal tokens, the only form a
chunksums line carries (Python's `int` additionally strips whitespace and
accepts signs and underscores; no formatted line contains those). -/
def parseSize (s : List Char) : Option Nat :=
  if s ≠ [] ∧ s.all Char.isDigit then some (digitsVal s) else none

/-- The dictionary `parse_line` returns: checksum, path, algorithm name and
the `(hex digest, length)` chunk list. -/
structure PRec where
  checksum : List Char
  path : List Char
  alg_name : List Char
  chunks : List (List Char × Nat)
deriving DecidableEq, Repr

/-- The comprehension in `parse_chunks`: split every chunk token on `':'`
(Python unpacking demands exactly two parts) and convert the size with
`int`; `none` models an uncaught `ValueError`. -/
def parseChunkTokens : List (List Char) → Option (List (List Char × Nat))
  | [] => some []
  | c :: cs =>
      match pySplitOn1 ':' c with
      | [i, s] =>
          match parseSize s, parseChunkTokens cs with
          | some n, some rest => some ((i, n) :: rest)
          | _, _ => none
      | _ => none

/-- `parse_chunks` (`parser.py`): `alg_name, chunks = data.split('!')`
(exactly two parts, else the unpacking raises), then, when the chunk field
is non-empty, parse the comma-separated non-empty `hex:int` tokens. -/
def parse_chunks (data : List Char) : Option (List Char × List (List Char × Nat)) :=
  let parts := pySplitOn1 '!' data
  if parts.length = 2 then
    let chunksStr := parts.getD 1 []
    if chunksStr = [] then some (parts.headI, [])
    else
      match parseChunkTokens ((pySplitOn1 ',' chunksStr).filter (· ≠ [])) with
      | some ps => some (parts.headI, ps)
      | none => none
  else none

/-- `parse_line` (`parser.py`): split on the two-space separator; first
token is the checksum, last token the `alg!chunks` field, and the path is
the two-space rejoin of the middle tokens when more than three tokens
exist, else `items[1]`.  `none` models an uncaught exception (`IndexError`
on `items[1]` for a separator-free line, or an error from
`parse_chunks`). -/
def parse_line (line : List Char) : Option PRec :=
  let items := pySplitSS line
  if items.length = 1 then none
  else
    match parse_chunks ((items.getLast?).getD []) with
    | some (alg, cs) =>
        some ⟨items.headI,
          if 3 < items.length then pyJoinSS ((items.drop 1).dropLast)
          else items.getD 1 [],
          alg, cs⟩
    | none => none

/-- Python `ch.isspace()` for the characters `str.strip` removes (ASCII
whitespace; the unicode cases do not occur in chunksums files). -/
def isPySpace (c : Char) : Bool :=
  c == ' ' || c == '\t' || c == '\n' || c == '\r' || c == '\x0b' || c == '\x0c'

/-- Python `s.strip()`. -/
def pyStrip (s : List Char) : List Char :=
  ((s.dropWhile isPySpace).reverse.dropWhile isPySpace).reverse

/-- `parse_chunksums` (`parser.py`) over the list of lines of the input
file: blank lines (after `strip`) are skipped; every other line goes
through `parse_line`.  The second component records whether the generator
raised (there is no exception handler around `parse_line`); the first
component lists the records yielded before any such error. -/
def parse_chunksums : List (List Char) → List PRec × Option Unit
  | [] => ([], none)
  | l :: ls =>
      let s := pyStrip l
      if s = [] then parse_chunksums ls
      else
        match parse_line s with
        | none => ([], some ())
        | some r => ((r :: (parse_chunksums ls).1), (parse_chunksums ls).2)

/-- `list_hash(digests, hasher_name)` (`chunksum.py`): digest of the
concatenation of the per-chunk digests; `H` abstracts the hasher selected
by `get_hasher(hasher_name)`. -/
def list_hash (H : Bytes → Bytes) (digests : List Bytes) : Bytes :=
  H digests.flatten

/-- One chunk's `f"{digest.hex()}:{size}"` token in `format_a_result`. -/
def chunkToken (p : Bytes × Nat) : List Char :=
  hexEncode p.1 ++ ':' :: natToChars p.2

/-- `format_a_result(path, result, alg_name)` (`chunksum.py`):
`f"{digest.hex()}  {path}  {alg_name}!{chunks}"` where `chunks` is the
comma-join of the chunk tokens and `digest` is the file digest from
`list_hash`. -/
def format_a_result (H : Bytes → Bytes) (path : List Char)
    (result : List (Bytes × Nat)) (alg_name : List Char) : List Char :=
  hexEncode (list_hash H (result.map Prod.fst)) ++ ' ' :: ' ' ::
    (path ++ ' ' :: ' ' :: (alg_name ++ '!' :: pyJoin1 ',' (result.map chunkToken)))

/-!
Hash dispatcher (`src/chunksum/hash.py`) and chunk-size policy
(`src/chunksum/chunksize.py`, `get_chunker` of `src/chunksum/chunksum.py`).
-/

/-- The keys of `HASH_FUNCTIONS` (`hash.py`): `sha2` maps to
`hashlib.sha256`, the other two to the blake2 constructors. -/
inductive HashFamily where
  | sha2
  | blake2b
  | blake2s
deriving DecidableEq, Repr

/-- A constructed hasher: its family and the `digest_size` keyword passed
to the constructor (`none` = default size; always `none` for sha2). -/
structure Hasher where
  family : HashFamily
  digest_size : Option Nat
deriving DecidableEq, Repr

/-- Python `str.lower` (ASCII; hash and size tokens are ASCII). -/
def pyLower (s : List Char) : List Char := s.map Char.toLower

/-- `re.match` of `(?P<hash_name>sha2|blake2b|blake2s)(?P<digest_size>\d+)?`:
`re.match` anchors at the start only, so this is a prefix match; the
alternatives are tried in order on the start of the string. -/
def hashNameMatch (n : List Char) : Option (HashFamily × List Char) :=
  if n.take 4 = "sha2".toList then some (.sha2, n.drop 4)
  else if n.take 7 = "blake2b".toList then some (.blake2b, n.drop 7)
  else if n.take 7 = "blake2s".toList then some (.blake2s, n.drop 7)
  else none

/-- Largest `digest_size` the hashlib constructor of each family accepts:
`blake2b` takes 1–64 bytes and `blake2s` 1–32 (a value outside the range
raises `ValueError`); `sha256` accepts no `digest_size` argument at all
(the `sha2` row is unreachable below, a suffixed `sha2` being rejected
first). -/
def hasherDigestMax : HashFamily → Nat
  | .sha2 => 0
  | .blake2b => 64
  | .blake2s => 32

/-- The constructor call `func(digest_size=v)` at the end of `get_hasher`:
it succeeds exactly for `1 ≤ v ≤ hasherDigestMax fam` and otherwise raises
(`ValueError: digest_size must be between 1 and ...` for the blake2
family). -/
def mkHasherSized (fam : HashFamily) (v : Nat) : Option Hasher :=
  if 1 ≤ v ∧ v ≤ hasherDigestMax fam then some ⟨fam, some v⟩ else none

/-- `get_hasher(name)` (`hash.py`): lower-case the name, prefix-match the
pattern (then greedily take the digit suffix), reject a digit suffix after
`sha2`, and build the hasher, passing `digest_size=int(suffix)` to the
constructor when a suffix is present.  `none` models an uncaught
exception: either the raised `Exception("unsupported hash name: ...")` or
the `ValueError` the blake2 constructor raises for an out-of-range digest
size. -/
def get_hasher (name : List Char) : Option Hasher :=
  match hashNameMatch (pyLower name) with
  | none => none
  | some (fam, rest) =>
      let digits := rest.takeWhile Char.isDigit
      if fam = .sha2 ∧ digits ≠ [] then none
      else if digits = [] then some ⟨fam, none⟩
      else mkHasherSized fam (digitsVal digits)

/-- `fastcdc.const.AVERAGE_MIN`, the smallest average chunk size the
`ChunkSize` constructor accepts. -/
def AVERAGE_MIN : Nat := 256

structure ChunkSize where
  avg : Nat
  min : Nat
  max : Nat
deriving DecidableEq, Repr

/-- `ChunkSize.__init__` (`chunksize.py`): `avg` must be at least
`AVERAGE_MIN` and a multiple of 4; then `min = avg/4` (Python computes the
float `avg / 4`, exact because `avg % 4 == 0`) and `max = avg*4`.  `none`
models the raised `ChunkSizeError`. -/
def chunkSizeMk (avg : Nat) : Option ChunkSize :=
  if avg < AVERAGE_MIN then none
  else if avg % 4 ≠ 0 then none
  else some ⟨avg, avg / 4, avg * 4⟩

/-- `ChunkSize.__mul__`: `ChunkSize(self.avg * x)`. -/
def chunkSizeMul (c : ChunkSize) (x : Nat) : Option ChunkSize :=
  chunkSizeMk (c.avg * x)

/-- The `UNITS` table (`chunksum.py`): `KILO = ChunkSize(1024)`,
`MEGA = KILO * 1024`, `GIGA = MEGA * 1024`.  `none` models a `KeyError`. -/
def UNITS (u : Char) : Option ChunkSize :=
  if u = 'k' then chunkSizeMk 1024
  else if u = 'm' then chunkSizeMk (1024 * 1024)
  else if u = 'g' then chunkSizeMk (1024 * 1024 * 1024)
  else none

/-- The `(avg, min, max)` parameters handed to `Chunker(...)`. -/
structure ChunkerParams where
  avg : Nat
  min : Nat
  max : Nat
deriving DecidableEq, Repr

/-- `get_chunker(size_name)` (`chunksum.py`): `re.match` of `(k|m|g)(\d)`
with `IGNORECASE` — anchored at the start only, so only the first two
characters are inspected; on a match,
`Chunker(size.avg, size.min, size.max)` with
`size = UNITS[unit.lower()] * 2 ** int(power)`.  `none` models the raised
`Exception("wrong unit or power of chunk size: ...")`. -/
def get_chunker (token : List Char) : Option ChunkerParams :=
  match token with
  | c1 :: c2 :: _ =>
      if (c1.toLower = 'k' ∨ c1.toLower = 'm' ∨ c1.toLower = 'g') ∧ c2.isDigit then
        match UNITS c1.toLower with
        | none => none
        | some co =>
            match chunkSizeMul co (2 ^ (c2.toNat - 48)) with
            | none => none
            | some s => some ⟨s.avg, s.min, s.max⟩
      else none
  | _ => none

/-- The byte value of one size unit: `base(k) = 1024`, `base(m) = 1024²`,
`base(g) = 1024³`. -/
def unitBase (u : Char) : Nat :=
  if u = 'k' then 1024
  else if u = 'm' then 1024 * 1024
  else if u = 'g' then 1024 * 1024 * 1024
  else 0

/-!
Single-process orchestrator (`compute_one_file`, `walk`, `compute` in
`src/chunksum/chunksum.py`) over an abstract filesystem, and the
multi-process worker's call of `compute_one_file` (`src/chunksum/mp.py`).
-/

abbrev Path := List Char

/-- State of a path in the modelled filesystem: missing (`os.path.getsize`
raises `FileNotFoundError`), existing but unreadable (`open` raises, e.g.
`PermissionError`), or readable with the given content. -/
inductive FileStat where
  | absent
  | unreadable
  | readable (content : Bytes)
deriving DecidableEq, Repr

/-- `compute_one_file` (`chunksum.py`): `getsize` first (raises for a
missing path), then the skip predicate (a skipped file produces no line,
progress is still advanced), then open/`compute_file`/`format_a_result`
and print-with-flush.  `Except.error` models the uncaught `OSError`; the
`ok` payload is the line written to the sink (`none` when skipped). -/
def compute_one_file (cut : Bytes → Bool) (H : Bytes → Bytes) (alg : List Char)
    (skip : Path → Bool) (fs : Path → FileStat) (p : Path) :
    Except Unit (Option (List Char)) :=
  match fs p with
  | .absent => .error ()
  | .unreadable => if skip p then .ok none else .error ()
  | .readable content =>
      if skip p then .ok none
      else .ok (some (format_a_result H p (compute_file cut H content) alg))

/-- `walk` (`chunksum.py`): `for path in iter: compute_one_file(...)` with
no exception handler.  Returns the lines flushed to the sink in order, and
`some ()` when an uncaught per-file error terminated the loop (lines
before the error are already flushed). -/
def walk (cut : Bytes → Bool) (H : Bytes → Bytes) (alg : List Char)
    (skip : Path → Bool) (fs : Path → FileStat) :
    List Path → List (List Char) × Option Unit
  | [] => ([], none)
  | p :: ps =>
      match compute_one_file cut H alg skip fs p with
      | .error _ => ([], some ())
      | .ok none => walk cut H alg skip fs ps
      | .ok (some l) =>
          (l :: (walk cut H alg skip fs ps).1, (walk cut H alg skip fs ps).2)

/-- The line `walk` emits for one path when no error occurs. -/
def walkLine (cut : Bytes → Bool) (H : Bytes → Bytes) (alg : List Char)
    (skip : Path → Bool) (fs : Path → FileStat) (p : Path) :
    Option (List Char) :=
  if skip p then none
  else
    match fs p with
    | .readable content =>
        some (format_a_result H p (compute_file cut H content) alg)
    | _ => none

/-- `compute` (`chunksum.py`) for a list of regular-file paths (for plain
files the stdin branch is not taken and `iter_files` yields each path
as-is; the total-size/progress computation never touches the sink): with
no paths it returns immediately, otherwise it walks the enumeration. -/
def compute (cut : Bytes → Bool) (H : Bytes → Bytes) (alg : List Char)
    (skip : Path → Bool) (fs : Path → FileStat) (paths : List Path) :
    List (List Char) × Option Unit :=
  if paths = [] then ([], none)
  else walk cut H alg skip fs paths

/-- The parameter names of `def compute_one_file(path, output_file,
progress_bar=None, alg_name="fck4sha2", skip_func=None)` in
`src/chunksum/chunksum.py`. -/
def compute_one_file_params : List String :=
  ["path", "output_file", "progress_bar", "alg_name", "skip_func"]

/-- The keyword arguments the multi-process worker (`consumer` in
`src/chunksum/mp.py`) passes in its call of `compute_one_file` (the first
argument, `path`, is positional). -/
def mp_consumer_call_kwargs : List String :=
  ["output_file", "update_progress", "alg_name", "skip_func", "bar_position"]

/-- A Python call binds only if every keyword argument names a declared
parameter; otherwise the call raises
`TypeError: got an unexpected keyword argument`. -/
def kwargsAccepted (params kwargs : List String) : Bool :=
  kwargs.all (fun k => params.contains k)

theorem cdcSplitAux_flatten (cut : Bytes → Bool) (acc : Bytes) (x : Bytes) :
    (cdcSplitAux cut acc x).flatten = acc ++ x := by
  induction x generalizing acc with
  | nil =>
      by_cases h : acc = [] <;> simp [cdcSplitAux, h]
  | cons b rest ih =>
      by_cases h : cut (acc ++ [b]) <;> simp [cdcSplitAux, h, ih]

theorem cdcSplit_flatten (cut : Bytes → Bool) (x : Bytes) :
    (cdcSplit cut x).flatten = x :=
  cdcSplitAux_flatten cut [] x

theorem cdcSplitAux_ne_nil (cut : Bytes → Bool) (acc : Bytes) (x : Bytes)
    (h : acc ≠ [] ∨ x ≠ []) : cdcSplitAux cut acc x ≠ [] := by
  induction x generalizing acc with
  | nil =>
      rcases h with h | h
      · simp [cdcSplitAux, h]
      · exact absurd rfl h
  | cons b rest ih =>
      by_cases hc : cut (acc ++ [b])
      · simp [cdcSplitAux, hc]
      · simpa [cdcSplitAux, hc] using ih (acc ++ [b]) (Or.inl (by simp))

theorem cdcSplit_ne_nil (cut : Bytes → Bool) (x : Bytes) (h : x ≠ []) :
    cdcSplit cut x ≠ [] :=
  cdcSplitAux_ne_nil cut [] x (Or.inr h)

theorem cdcSplitAux_pass (cut : Bytes → Bool) (acc : Bytes) :
    ∀ (pre y : Bytes), cleanFrom cut pre acc →
      cdcSplitAux cut pre (acc ++ y) = cdcSplitAux cut (pre ++ acc) y := by
  induction acc with
  | nil => intro pre y _; simp
  | cons b rest ih =>
      intro pre y hclean
      have hb : cut (pre ++ [b]) = false := by
        have := hclean 1 le_rfl (by simp)
        simpa using this
      have hrest : cleanFrom cut (pre ++ [b]) rest := by
        intro k hk1 hk2
        have := hclean (k + 1) (by omega) (by simp; omega)
        simpa [List.append_assoc] using this
      simp only [List.cons_append, cdcSplitAux, hb, Bool.false_eq_true, if_false,
        List.append_eq]
      rw [ih (pre ++ [b]) y hrest]
      simp [List.append_assoc]

theorem clean_nil (cut : Bytes → Bool) (pre : Bytes) : cleanFrom cut pre [] := by
  intro k hk1 hk2
  simp at hk2
  omega

theorem clean_snoc (cut : Bytes → Bool) (acc : Bytes) (b : Nat)
    (h : cleanFrom cut [] acc) (hb : cut (acc ++ [b]) = false) :
    cleanFrom cut [] (acc ++ [b]) := by
  intro k hk1 hk2
  simp at hk2
  rcases Nat.lt_or_ge k (acc.length + 1) with hlt | hge
  · rcases Nat.lt_or_ge k (acc.length + 1) with _ | _
    · by_cases hk : k ≤ acc.length
      · have := h k hk1 hk
        simpa [List.take_append_of_le_length hk] using this
      · omega
    · omega
  · have hk : k = acc.length + 1 := by omega
    subst hk
    simpa [List.take_append] using hb

theorem getLast_getD_mem {α : Type} (l : List (List α)) (h : l ≠ []) :
    l.getLast?.getD [] ∈ l := by
  induction l with
  | nil => exact absurd rfl h
  | cons a t ih =>
      cases t with
      | nil => simp [List.getLast?]
      | cons b u =>
          rw [List.getLast?_cons_cons]
          exact List.mem_cons_of_mem a (ih (by simp))

theorem getLastQ_cons_of_ne {α : Type} (a : α) (l : List α) (h : l ≠ []) :
    (a :: l).getLast? = l.getLast? := by
  cases l with
  | nil => exact absurd rfl h
  | cons b u => simp [List.getLast?_cons_cons]

theorem dropLast_cons_of_ne {α : Type} (a : α) (l : List α) (h : l ≠ []) :
    (a :: l).dropLast = a :: l.dropLast := by
  cases l with
  | nil => exact absurd rfl h
  | cons b u => rfl

/-- Streaming form of the splitter: splitting `acc`-continued input `x ++ y`
is the same as splitting `x`, keeping all chunks but the last, and
re-splitting the last chunk prepended to `y` from scratch.  This is exactly
the contract the `Chunker` relies on when `update` re-splits
`tail + message`. -/
theorem cdcSplitAux_stream (cut : Bytes → Bool) :
    ∀ (x acc y : Bytes), cleanFrom cut [] acc →
      cdcSplitAux cut acc (x ++ y) =
        (cdcSplitAux cut acc x).dropLast ++
          cdcSplit cut ((cdcSplitAux cut acc x).getLast?.getD [] ++ y) := by
  intro x
  induction x with
  | nil =>
      intro acc y hclean
      by_cases ha : acc = []
      · subst ha
        simp [cdcSplitAux, cdcSplit]
      · have hpass := cdcSplitAux_pass cut acc [] y hclean
        simp only [List.nil_append, cdcSplitAux, ha, if_false]
        simp only [List.dropLast_single, List.getLast?_singleton, Option.getD_some,
          List.nil_append, cdcSplit]
        rw [hpass]
        simp
  | cons b rest ih =>
      intro acc y hclean
      by_cases hc : cut (acc ++ [b])
      · have lhs_eq : cdcSplitAux cut acc ((b :: rest) ++ y) =
            (acc ++ [b]) :: cdcSplitAux cut [] (rest ++ y) := by
          simp [cdcSplitAux, hc]
        have rhs_eq : cdcSplitAux cut acc (b :: rest) =
            (acc ++ [b]) :: cdcSplitAux cut [] rest := by
          simp [cdcSplitAux, hc]
        rw [lhs_eq, rhs_eq]
        cases hrest : rest with
        | nil =>
            subst hrest
            have h0 : cdcSplitAux cut [] ([] : Bytes) = [] := rfl
            simp only [h0, List.dropLast_single, List.getLast?_singleton,
              Option.getD_some, List.nil_append]
            have hpass := cdcSplitAux_pass cut acc [] ([b] ++ y) hclean
            simp only [cdcSplit, List.append_assoc]
            rw [hpass]
            simp [cdcSplitAux, hc]
        | cons r rs =>
            rw [← hrest]
            have hne : cdcSplitAux cut [] rest ≠ [] := by
              apply cdcSplitAux_ne_nil
              right
              simp [hrest]
            have hihr := ih [] y (clean_nil cut [])
            simp only [List.nil_append] at hihr
            rw [hihr]
            rw [dropLast_cons_of_ne _ _ hne, getLastQ_cons_of_ne _ _ hne]
            simp
      · simp only [List.cons_append, cdcSplitAux, hc, Bool.false_eq_true, if_false,
          List.append_eq]
        exact ih (acc ++ [b]) y (clean_snoc cut acc b hclean (by simpa using hc))

/-- Every chunk the splitter produces is non-empty and is re-split into
exactly itself: its proper prefixes carry no boundary, and if it ends at a
boundary that boundary fires again on a rescan.  Hence the retained tail
of the `Chunker` is always re-split as one whole chunk. -/
theorem cdcSplitAux_atomic (cut : Bytes → Bool) :
    ∀ (x acc : Bytes), cleanFrom cut [] acc →
      ∀ c ∈ cdcSplitAux cut acc x, c ≠ [] ∧ cdcSplit cut c = [c] := by
  intro x
  induction x with
  | nil =>
      intro acc hclean c hc
      by_cases ha : acc = []
      · subst ha
        simp [cdcSplitAux] at hc
      · simp only [cdcSplitAux, ha, if_false, List.mem_singleton] at hc
        subst hc
        refine ⟨ha, ?_⟩
        have hpass := cdcSplitAux_pass cut c [] [] hclean
        simp only [cdcSplit]
        rw [show c = c ++ [] by simp]
        rw [hpass]
        simp [cdcSplitAux, ha]
  | cons b rest ih =>
      intro acc hclean c hc
      by_cases hb : cut (acc ++ [b])
      · simp only [cdcSplitAux, hb, if_true, List.mem_cons] at hc
        rcases hc with hc | hc
        · subst hc
          refine ⟨by simp, ?_⟩
          have hpass := cdcSplitAux_pass cut acc [] [b] hclean
          simp only [cdcSplit]
          rw [hpass]
          simp [cdcSplitAux, hb]
        · exact ih [] (clean_nil cut []) c hc
      · simp only [cdcSplitAux, hb, Bool.false_eq_true, if_false] at hc
        exact ih (acc ++ [b]) (clean_snoc cut acc b hclean (by simpa using hb)) c hc

/-- Normal form of the incremental feed: feeding any sequence of non-empty
buffers (starting from an atomic retained tail `t`) and flushing at EOF
yields exactly the chunks of the one-shot split of the whole content. -/
theorem feedBuffers_eq_cdcSplit (cut : Bytes → Bool) :
    ∀ (bufs : List Bytes) (t : Bytes), (∀ m ∈ bufs, m ≠ []) →
      (t = [] ∨ cdcSplit cut t = [t]) →
      feedBuffers cut t bufs = cdcSplit cut (t ++ bufs.flatten) := by
  intro bufs
  induction bufs with
  | nil =>
      intro t _ hat
      rcases hat with ht | ht
      · subst ht
        simp [feedBuffers, cdcSplit, cdcSplitAux]
      · by_cases h0 : t = []
        · subst h0
          simp [feedBuffers, cdcSplit, cdcSplitAux]
        · simp only [feedBuffers, h0, if_false, List.flatten_nil, List.append_nil]
          exact ht.symm
  | cons m ms ih =>
      intro t hne hat
      have hm : m ≠ [] := hne m (by simp)
      have htm : t ++ m ≠ [] := by simp [hm]
      have hcs : cdcSplit cut (t ++ m) ≠ [] := cdcSplit_ne_nil cut _ htm
      have hgmem : (cdcSplit cut (t ++ m)).getLast?.getD [] ∈ cdcSplit cut (t ++ m) :=
        getLast_getD_mem _ hcs
      have hgat := cdcSplitAux_atomic cut (t ++ m) [] (clean_nil cut []) _ hgmem
      have hih := ih ((cdcSplit cut (t ++ m)).getLast?.getD [])
        (fun x hx => hne x (by simp [hx])) (Or.inr hgat.2)
      have key : cdcSplit cut ((t ++ m) ++ ms.flatten) =
          (cdcSplit cut (t ++ m)).dropLast ++
            cdcSplit cut ((cdcSplit cut (t ++ m)).getLast?.getD [] ++ ms.flatten) :=
        cdcSplitAux_stream cut (t ++ m) [] ms.flatten (clean_nil cut [])
      simp only [feedBuffers]
      rw [hih, List.flatten_cons,
        show t ++ (m ++ ms.flatten) = (t ++ m) ++ ms.flatten by simp, key]

/-- Claim C1 (buffer-independence of chunking): for every byte content and
any two decompositions of it into non-empty buffers fed to the `Chunker`
through successive `update` calls with the tail flushed at EOF
(`feedBuffers`), the produced chunk sequences are identical, and both equal
the one-shot split of the whole content (consuming it in one buffer). -/
theorem C1_buffer_independence (cut : Bytes → Bool) (s1 s2 : List Bytes)
    (h1 : ∀ m ∈ s1, m ≠ []) (h2 : ∀ m ∈ s2, m ≠ [])
    (hj : s1.flatten = s2.flatten) :
    feedBuffers cut [] s1 = feedBuffers cut [] s2 ∧
      feedBuffers cut [] s1 = cdcSplit cut s1.flatten := by
  have e1 := feedBuffers_eq_cdcSplit cut s1 [] h1 (Or.inl rfl)
  have e2 := feedBuffers_eq_cdcSplit cut s2 [] h2 (Or.inl rfl)
  simp only [List.nil_append] at e1 e2
  exact ⟨by rw [e1, e2, hj], e1⟩

theorem C1_buffer_independence_witness :
    (∀ m ∈ ([[1], [2, 3]] : List Bytes), m ≠ []) ∧
    (∀ m ∈ ([[1, 2, 3]] : List Bytes), m ≠ []) ∧
    ([[1], [2, 3]] : List Bytes).flatten = ([[1, 2, 3]] : List Bytes).flatten ∧
    (feedBuffers (fun l => decide (l.length = 2)) [] [[1], [2, 3]] =
        feedBuffers (fun l => decide (l.length = 2)) [] [[1, 2, 3]] ∧
      feedBuffers (fun l => decide (l.length = 2)) [] [[1], [2, 3]] =
        cdcSplit (fun l => decide (l.length = 2)) ([[1], [2, 3]] : List Bytes).flatten) :=
  ⟨by decide, by decide, by decide,
    C1_buffer_independence (fun l => decide (l.length = 2)) [[1], [2, 3]] [[1, 2, 3]]
      (by decide) (by decide) (by decide)⟩

theorem option_some_getD {α : Type} (o : Option α) (d : α) (h : o.isSome) :
    o = some (o.getD d) := by
  cases o with
  | none => simp at h
  | some a => rfl

theorem computeFileBufs_eq_map (cut : Bytes → Bool) (H : Bytes → Bytes) :
    ∀ (bufs : List Bytes) (t : Bytes),
      computeFileBufs cut H t bufs =
        (feedBuffers cut t bufs).map (fun c => (H c, c.length)) := by
  intro bufs
  induction bufs with
  | nil =>
      intro t
      by_cases ht : t = [] <;> simp [computeFileBufs, feedBuffers, ht]
  | cons m ms ih =>
      intro t
      simp [computeFileBufs, feedBuffers, ih]

theorem toBuffers_flatten (x : Bytes) : (toBuffers x).flatten = x := by
  induction x using toBuffers.induct with
  | case1 => simp [toBuffers]
  | case2 x h ih =>
      rw [toBuffers]
      simp only [h, if_false, List.flatten_cons, ih]
      exact List.take_append_drop _ x

theorem toBuffers_ne_nil (x : Bytes) : ∀ m ∈ toBuffers x, m ≠ [] := by
  induction x using toBuffers.induct with
  | case1 => simp [toBuffers]
  | case2 x h ih =>
      rw [toBuffers]
      simp only [h, if_false, List.mem_cons]
      rintro m (hm | hm)
      · subst hm
        simp [List.take_eq_nil_iff, h, bufferSize]
      · exact ih m hm

/-- Claim C4 (compute_file postcondition): for every input stream content
and every (abstract) chunker/hasher pair, the `(digest, length)` pairs
returned by `compute_file` cover the stream exactly: the lengths sum to the
stream size (the non-empty tail being hashed and appended at EOF), and the
empty stream yields the empty chunk list. -/
theorem C4_compute_file_covers (cut : Bytes → Bool) (H : Bytes → Bytes)
    (content : Bytes) :
    ((compute_file cut H content).map Prod.snd).sum = content.length ∧
      compute_file cut H [] = [] := by
  constructor
  · have hfeed := feedBuffers_eq_cdcSplit cut (toBuffers content) []
      (toBuffers_ne_nil content) (Or.inl rfl)
    simp only [List.nil_append, toBuffers_flatten] at hfeed
    simp only [compute_file, computeFileBufs_eq_map, hfeed]
    rw [List.map_map]
    have : (Prod.snd ∘ fun c : Bytes => (H c, c.length)) = List.length := rfl
    rw [this]
    rw [← List.length_flatten]
    rw [cdcSplit_flatten]
  · simp [compute_file, toBuffers, computeFileBufs]

/-- Normal form of the `Chunker` under canonical usage (each `update`
immediately followed by a full read of `chunks`): starting from tail `t`
(an atomic retained chunk), feeding non-empty buffers yields all chunks of
the one-shot split except the last, which is retained as the tail. -/
theorem chunkerFeedAll_normal (cut : Bytes → Bool) :
    ∀ (ms : List Bytes) (t : Bytes) (it : Option (List Bytes)),
      (∀ m ∈ ms, m ≠ []) → (t = [] ∨ cdcSplit cut t = [t]) →
      ∃ it', chunkerFeedAll cut ⟨some t, it⟩ ms =
        some (⟨some ((cdcSplit cut (t ++ ms.flatten)).getLast?.getD []), it'⟩,
          (cdcSplit cut (t ++ ms.flatten)).dropLast) := by
  intro ms
  induction ms with
  | nil =>
      intro t it _ hat
      refine ⟨it, ?_⟩
      rcases hat with ht | ht
      · subst ht
        simp [chunkerFeedAll, cdcSplit, cdcSplitAux]
      · simp only [List.flatten_nil, List.append_nil, ht]
        have e1 : ([t] : List Bytes).getLast?.getD [] = t := by simp
        have e2 : ([t] : List Bytes).dropLast = [] := rfl
        rw [e1, e2]
        rfl
  | cons m ms ih =>
      intro t it hne hat
      have hm : m ≠ [] := hne m (by simp)
      have htm : t ++ m ≠ [] := by simp [hm]
      have hcs : cdcSplit cut (t ++ m) ≠ [] := cdcSplit_ne_nil cut _ htm
      have hlast : (cdcSplit cut (t ++ m)).getLast? =
          some ((cdcSplit cut (t ++ m)).getLast?.getD []) :=
        option_some_getD _ [] (List.getLast?_isSome.mpr hcs)
      have hgmem := getLast_getD_mem _ hcs
      have hgat := cdcSplitAux_atomic cut (t ++ m) [] (clean_nil cut []) _ hgmem
      obtain ⟨it', hrec⟩ := ih ((cdcSplit cut (t ++ m)).getLast?.getD []) (some [])
        (fun x hx => hne x (by simp [hx])) (Or.inr hgat.2)
      refine ⟨it', ?_⟩
      have hkey : cdcSplit cut ((t ++ m) ++ ms.flatten) =
          (cdcSplit cut (t ++ m)).dropLast ++
            cdcSplit cut ((cdcSplit cut (t ++ m)).getLast?.getD [] ++ ms.flatten) :=
        cdcSplitAux_stream cut (t ++ m) [] ms.flatten (clean_nil cut [])
      have hC : cdcSplit cut ((cdcSplit cut (t ++ m)).getLast?.getD [] ++ ms.flatten) ≠ [] :=
        cdcSplit_ne_nil cut _ (by simp [hgat.1])
      have hstep2 : chunkerFeedAll cut ⟨some t, it⟩ (m :: ms) =
          match chunkerFeedAll cut ⟨(cdcSplit cut (t ++ m)).getLast?, some []⟩ ms with
          | none => none
          | some (c'', ys') => some (c'', (cdcSplit cut (t ++ m)).dropLast ++ ys') := rfl
      rw [hstep2, hlast, hrec]
      rw [List.flatten_cons, show t ++ (m ++ ms.flatten) = (t ++ m) ++ ms.flatten by simp,
        hkey]
      rw [List.getLast?_append_of_ne_nil _ hC,
        List.dropLast_append_of_ne_nil _ hC]

/-- Claim C3 counterexample: immediately after a bare `update` (no
iteration of `chunks`), the supplied bytes sit in the pending iterator, not
in the yielded chunks nor in the retained tail, so the claimed invariant
"concatenation of yielded chunks plus tail equals bytes supplied since
reset" evaluates to false at the concrete run `update(b"\x01")`. -/
theorem C3_invariant_counterexample :
    (runOps (fun _ => false) (chunkerInit, [], []) [COp.update [1]]).map
        (fun r => decide (r.2.1.flatten ++ r.1.tail.getD [] = r.2.2)) =
      some false := by
  decide

/-- Claim C3, amended: under the canonical usage (every `update` is
immediately followed by a complete iteration of `chunks`, and buffers are
non-empty), the invariant holds: the yielded chunks plus the retained tail
concatenate to all bytes supplied since the last reset, the tail is the
last chunk of the split of the supplied bytes (which is the accumulated
prefix when no chunk has been yielded), and `reset` returns the tail and
replaces it by the empty byte string. -/
theorem C3_invariant_amended (cut : Bytes → Bool) (ms : List Bytes)
    (h : ∀ m ∈ ms, m ≠ []) :
    ∃ c ys, chunkerFeedAll cut chunkerInit ms = some (c, ys) ∧
      ys.flatten ++ c.tail.getD [] = ms.flatten ∧
      c.tail = some ((cdcSplit cut ms.flatten).getLast?.getD []) ∧
      ys = (cdcSplit cut ms.flatten).dropLast ∧
      (chunkerReset c).1 = c.tail ∧ (chunkerReset c).2.tail = some [] := by
  obtain ⟨it', hrun⟩ := chunkerFeedAll_normal cut ms [] none h (Or.inl rfl)
  simp only [List.nil_append] at hrun
  refine ⟨_, _, hrun, ?_, rfl, rfl, rfl, rfl⟩
  have h1 : ((cdcSplit cut ms.flatten).dropLast).flatten ++
      ((cdcSplit cut ms.flatten).getLast?.getD []) = ms.flatten := by
    by_cases hnil : cdcSplit cut ms.flatten = []
    · have hfl := cdcSplit_flatten cut ms.flatten
      rw [hnil] at hfl
      rw [hnil]
      simpa using hfl
    · have hgl : (cdcSplit cut ms.flatten).getLast?.getD [] =
          (cdcSplit cut ms.flatten).getLast hnil := by
        rw [List.getLast?_eq_getLast _ hnil]
        rfl
      rw [hgl]
      have h2 : ((cdcSplit cut ms.flatten).dropLast).flatten ++
          (cdcSplit cut ms.flatten).getLast hnil =
          ((cdcSplit cut ms.flatten).dropLast ++
            [(cdcSplit cut ms.flatten).getLast hnil]).flatten := by
        simp
      rw [h2, List.dropLast_append_getLast hnil, cdcSplit_flatten]
  simpa using h1

theorem C3_invariant_amended_witness :
    (∀ m ∈ ([[1, 2], [3]] : List Bytes), m ≠ []) ∧
    (∃ c ys, chunkerFeedAll (fun l => decide (l.length = 2)) chunkerInit
        [[1, 2], [3]] = some (c, ys) ∧
      ys.flatten ++ c.tail.getD [] = ([[1, 2], [3]] : List Bytes).flatten ∧
      c.tail = some ((cdcSplit (fun l => decide (l.length = 2))
        ([[1, 2], [3]] : List Bytes).flatten).getLast?.getD []) ∧
      ys = (cdcSplit (fun l => decide (l.length = 2))
        ([[1, 2], [3]] : List Bytes).flatten).dropLast ∧
      (chunkerReset c).1 = c.tail ∧ (chunkerReset c).2.tail = some []) :=
  ⟨by decide,
    C3_invariant_amended (fun l => decide (l.length = 2)) [[1, 2], [3]] (by decide)⟩

theorem pySplitSS_sep (rest : List Char) :
    pySplitSS (' ' :: ' ' :: rest) = [] :: pySplitSS rest := by
  simp [pySplitSS]

theorem pySplitSS_ne_nil (s : List Char) : pySplitSS s ≠ [] := by
  rcases s with _ | ⟨c1, _ | ⟨c2, rest⟩⟩
  · simp [pySplitSS]
  · simp [pySplitSS]
  · rw [pySplitSS]
    by_cases h : c1 = ' ' ∧ c2 = ' '
    · simp [h]
    · simp only [h, if_false]
      rcases hS : pySplitSS (c2 :: rest) with _ | ⟨t, ts⟩ <;> simp

theorem pySplitSS_cons_cons (c1 c2 : Char) (rest : List Char)
    (h : ¬ (c1 = ' ' ∧ c2 = ' ')) :
    pySplitSS (c1 :: c2 :: rest) =
      (c1 :: (pySplitSS (c2 :: rest)).headI) :: (pySplitSS (c2 :: rest)).tail := by
  rw [pySplitSS]
  simp only [h, if_false]
  rcases hS : pySplitSS (c2 :: rest) with _ | ⟨t, ts⟩
  · exact absurd hS (pySplitSS_ne_nil _)
  · simp

theorem pySplitSS_cons_of_ne_space (c : Char) (l : List Char) (h : ¬ c = ' ') :
    pySplitSS (c :: l) =
      (c :: (pySplitSS l).headI) :: (pySplitSS l).tail := by
  cases l with
  | nil => simp [pySplitSS]
  | cons c2 rest => exact pySplitSS_cons_cons c c2 rest (fun e => h e.1)

theorem pySplitSS_of_no_space (s : List Char) (h : ' ' ∉ s) :
    pySplitSS s = [s] := by
  induction s with
  | nil => rfl
  | cons c cs ih =>
      have hc : ¬ c = ' ' := fun e => h (by simp [e])
      have hcs : ' ' ∉ cs := fun m => h (by simp [m])
      rw [pySplitSS_cons_of_ne_space c cs hc, ih hcs]
      simp

theorem pySplitSS_append_sep (ck rest : List Char) (h : ' ' ∉ ck) :
    pySplitSS (ck ++ ' ' :: ' ' :: rest) = ck :: pySplitSS rest := by
  induction ck with
  | nil => simpa using pySplitSS_sep rest
  | cons c cs ih =>
      have hc : ¬ c = ' ' := fun e => h (by simp [e])
      have hcs : ' ' ∉ cs := fun m => h (by simp [m])
      rw [List.cons_append, pySplitSS_cons_of_ne_space c _ hc, ih hcs]
      simp

theorem pyJoinSS_cons_head (c : Char) (t : List Char) (ts : List (List Char)) :
    pyJoinSS ((c :: t) :: ts) = c :: pyJoinSS (t :: ts) := by
  cases ts <;> simp [pyJoinSS]

theorem pyJoinSS_pySplitSS (s : List Char) : pyJoinSS (pySplitSS s) = s := by
  induction s using pySplitSS.induct with
  | case1 => rfl
  | case2 c => rfl
  | case3 c1 c2 rest h ih =>
      obtain ⟨rfl, rfl⟩ := h
      rw [pySplitSS_sep]
      rcases hS : pySplitSS rest with _ | ⟨t, ts⟩
      · exact absurd hS (pySplitSS_ne_nil _)
      · rw [hS] at ih
        simp [pyJoinSS, ih]
  | case4 c1 c2 rest h hnil ih =>
      exact absurd hnil (pySplitSS_ne_nil _)
  | case5 c1 c2 rest h t ts hS ih =>
      rw [pySplitSS_cons_cons c1 c2 rest h]
      rw [hS] at ih ⊢
      simp only [List.headI, List.tail_cons]
      rw [pyJoinSS_cons_head, ih]

theorem pySplitSS_append_last (path last : List Char)
    (hp : path.getLast? ≠ some ' ') (hl : ' ' ∉ last) :
    pySplitSS (path ++ ' ' :: ' ' :: last) = pySplitSS path ++ [last] := by
  induction path using pySplitSS.induct with
  | case1 =>
      rw [List.nil_append, pySplitSS_sep, pySplitSS_of_no_space last hl]
      rfl
  | case2 c =>
      have hc : ¬ c = ' ' := by
        intro e
        subst e
        simp [List.getLast?] at hp
      rw [List.cons_append, List.nil_append, pySplitSS_cons_of_ne_space c _ hc,
        pySplitSS_sep, pySplitSS_of_no_space last hl]
      rfl
  | case3 c1 c2 rest h ih =>
      obtain ⟨rfl, rfl⟩ := h
      have hrest : rest ≠ [] := by
        intro e
        subst e
        simp [List.getLast?] at hp
      have hp' : rest.getLast? ≠ some ' ' := by
        rw [getLastQ_cons_of_ne ' ' (' ' :: rest) (by simp),
          getLastQ_cons_of_ne ' ' rest hrest] at hp
        exact hp
      rw [List.cons_append, List.cons_append, pySplitSS_sep, ih hp', pySplitSS_sep]
      rfl
  | case4 c1 c2 rest h hnil ih =>
      exact absurd hnil (pySplitSS_ne_nil _)
  | case5 c1 c2 rest h t ts hS ih =>
      have hp' : (c2 :: rest).getLast? ≠ some ' ' := by
        rw [getLastQ_cons_of_ne c1 (c2 :: rest) (by simp)] at hp
        exact hp
      have ih' := ih hp'
      have e1 : (c1 :: c2 :: rest) ++ ' ' :: ' ' :: last
          = c1 :: c2 :: (rest ++ ' ' :: ' ' :: last) := by simp
      rw [e1, pySplitSS_cons_cons c1 c2 (rest ++ ' ' :: ' ' :: last) h]
      have e2 : c2 :: (rest ++ ' ' :: ' ' :: last)
          = (c2 :: rest) ++ ' ' :: ' ' :: last := by simp
      rw [e2, ih', hS]
      rw [pySplitSS_cons_cons c1 c2 rest h, hS]
      simp

theorem pySplitOn1_ne_nil (sep : Char) (s : List Char) :
    pySplitOn1 sep s ≠ [] := by
  rcases s with _ | ⟨c, rest⟩
  · simp [pySplitOn1]
  · rw [pySplitOn1]
    by_cases h : c = sep
    · simp [h]
    · simp only [h, if_false]
      rcases hS : pySplitOn1 sep rest with _ | ⟨t, ts⟩ <;> simp

theorem pySplitOn1_sep_cons (sep : Char) (l : List Char) :
    pySplitOn1 sep (sep :: l) = [] :: pySplitOn1 sep l := by
  simp [pySplitOn1]

theorem pySplitOn1_cons_of_ne (sep c : Char) (l : List Char) (h : ¬ c = sep) :
    pySplitOn1 sep (c :: l) =
      (c :: (pySplitOn1 sep l).headI) :: (pySplitOn1 sep l).tail := by
  rw [pySplitOn1]
  simp only [h, if_false]
  rcases hS : pySplitOn1 sep l with _ | ⟨t, ts⟩
  · exact absurd hS (pySplitOn1_ne_nil _ _)
  · simp

theorem pySplitOn1_of_no_sep (sep : Char) (s : List Char) (h : sep ∉ s) :
    pySplitOn1 sep s = [s] := by
  induction s with
  | nil => rfl
  | cons c cs ih =>
      have hc : ¬ c = sep := fun e => h (by simp [e])
      have hcs : sep ∉ cs := fun m => h (by simp [m])
      rw [pySplitOn1_cons_of_ne sep c cs hc, ih hcs]
      simp

theorem pySplitOn1_append (sep : Char) (a b : List Char) (h : sep ∉ a) :
    pySplitOn1 sep (a ++ sep :: b) = a :: pySplitOn1 sep b := by
  induction a with
  | nil => simpa using pySplitOn1_sep_cons sep b
  | cons c cs ih =>
      have hc : ¬ c = sep := fun e => h (by simp [e])
      have hcs : sep ∉ cs := fun m => h (by simp [m])
      rw [List.cons_append, pySplitOn1_cons_of_ne sep c _ hc, ih hcs]
      simp

theorem pySplitOn1_pyJoin1 (sep : Char) (ts : List (List Char))
    (hne : ts ≠ []) (h : ∀ t ∈ ts, sep ∉ t) :
    pySplitOn1 sep (pyJoin1 sep ts) = ts := by
  induction ts with
  | nil => exact absurd rfl hne
  | cons x xs ih =>
      cases xs with
      | nil =>
          simp only [pyJoin1]
          exact pySplitOn1_of_no_sep sep x (h x (by simp))
      | cons y ys =>
          have hx : sep ∉ x := h x (by simp)
          rw [show pyJoin1 sep (x :: y :: ys) = x ++ sep :: pyJoin1 sep (y :: ys) from rfl]
          rw [pySplitOn1_append sep x _ hx]
          rw [ih (by simp) (fun t ht => h t (by simp [ht]))]

theorem hexDigitChar_mem (n : Nat) :
    hexDigitChar n ∈ "0123456789abcdef".toList := by
  unfold hexDigitChar
  rcases h : "0123456789abcdef".toList[n]? with _ | c
  · rw [List.getD_eq_getElem?_getD, h]
    decide
  · rw [List.getD_eq_getElem?_getD, h]
    exact List.getElem?_mem h

theorem hexChars_ok :
    ∀ c ∈ "0123456789abcdef".toList,
      ¬ c = ' ' ∧ ¬ c = ':' ∧ ¬ c = ',' ∧ ¬ c = '!' := by
  decide

theorem hexEncode_chars (bs : Bytes) :
    ∀ c ∈ hexEncode bs, c ∈ "0123456789abcdef".toList := by
  intro c hc
  simp only [hexEncode, List.mem_flatten, List.mem_map] at hc
  obtain ⟨l, ⟨b, _, rfl⟩, hcl⟩ := hc
  simp only [List.mem_cons, List.not_mem_nil, or_false] at hcl
  rcases hcl with rfl | rfl
  · exact hexDigitChar_mem _
  · exact hexDigitChar_mem _

theorem decDigitChar_isDigit (n : Nat) : (decDigitChar n).isDigit = true := by
  unfold decDigitChar
  split <;> decide

theorem decVal_decChar (m : Nat) (h : m < 10) :
    decDigitVal (decDigitChar m) = m := by
  interval_cases m <;> decide

theorem natToCharsGo_eq (n : Nat) (acc : List Char) :
    natToCharsGo n acc =
      if n = 0 then acc
      else natToCharsGo (n / 10) (decDigitChar (n % 10) :: acc) := by
  rw [natToCharsGo]

theorem natToCharsGo_append (n : Nat) :
    ∀ acc, natToCharsGo n acc = natToCharsGo n [] ++ acc := by
  induction n using Nat.strong_induction_on with
  | _ n ih =>
      intro acc
      by_cases h : n = 0
      · rw [natToCharsGo_eq n acc, natToCharsGo_eq n []]
        simp [h]
      · rw [natToCharsGo_eq n acc, natToCharsGo_eq n []]
        simp only [h, if_false]
        have hd : n / 10 < n := Nat.div_lt_self (Nat.pos_of_ne_zero h) (by omega)
        rw [ih (n / 10) hd (decDigitChar (n % 10) :: acc),
          ih (n / 10) hd [decDigitChar (n % 10)]]
        simp

theorem digitsVal_snoc (a : List Char) (d : Char) :
    digitsVal (a ++ [d]) = digitsVal a * 10 + decDigitVal d := by
  simp [digitsVal, List.foldl_append]

theorem natToCharsGo_val (n : Nat) (h : 0 < n) :
    digitsVal (natToCharsGo n []) = n := by
  induction n using Nat.strong_induction_on with
  | _ n ih =>
      rw [natToCharsGo_eq]
      simp only [Nat.pos_iff_ne_zero.mp h, if_false]
      by_cases h10 : n / 10 = 0
      · rw [natToCharsGo_eq (n / 10)]
        simp only [h10, if_pos rfl]
        have hlt : n % 10 < 10 := Nat.mod_lt n (by omega)
        have hsmall : n < 10 := by omega
        simp [digitsVal, decVal_decChar (n % 10) hlt]
        omega
      · rw [natToCharsGo_append (n / 10) [decDigitChar (n % 10)]]
        rw [digitsVal_snoc]
        have hd : n / 10 < n := Nat.div_lt_self h (by omega)
        rw [ih (n / 10) hd (Nat.pos_of_ne_zero h10)]
        rw [decVal_decChar (n % 10) (Nat.mod_lt n (by omega))]
        omega

theorem natToChars_val (n : Nat) : digitsVal (natToChars n) = n := by
  by_cases h : n = 0
  · subst h
    decide
  · rw [natToChars]
    simp only [h, if_false]
    exact natToCharsGo_val n (Nat.pos_of_ne_zero h)

theorem natToCharsGo_digits (n : Nat) :
    ∀ acc, (∀ c ∈ acc, c.isDigit = true) →
      ∀ c ∈ natToCharsGo n acc, c.isDigit = true := by
  induction n using Nat.strong_induction_on with
  | _ n ih =>
      intro acc hacc c hc
      rw [natToCharsGo_eq] at hc
      by_cases h : n = 0
      · rw [if_pos h] at hc
        exact hacc c hc
      · rw [if_neg h] at hc
        have hd : n / 10 < n := Nat.div_lt_self (Nat.pos_of_ne_zero h) (by omega)
        refine ih (n / 10) hd (decDigitChar (n % 10) :: acc) ?_ c hc
        intro d hd'
        simp only [List.mem_cons] at hd'
        rcases hd' with rfl | h'
        · exact decDigitChar_isDigit _
        · exact hacc d h'

theorem natToChars_digits (n : Nat) :
    ∀ c ∈ natToChars n, c.isDigit = true := by
  rw [natToChars]
  by_cases h : n = 0
  · simp only [h, if_pos rfl]
    decide
  · simp only [h, if_false]
    exact natToCharsGo_digits n [] (by simp)

theorem natToChars_ne_nil (n : Nat) : natToChars n ≠ [] := by
  rw [natToChars]
  by_cases h : n = 0
  · simp [h]
  · simp only [h, if_false]
    rw [natToCharsGo_eq]
    simp only [h, if_false]
    rw [natToCharsGo_append (n / 10)]
    simp

theorem isDigit_prop (c : Char) (h : c.isDigit = true) :
    ¬ c = ' ' ∧ ¬ c = ':' ∧ ¬ c = ',' ∧ ¬ c = '!' := by
  refine ⟨?_, ?_, ?_, ?_⟩ <;> rintro rfl <;> exact absurd h (by decide)

theorem parseSize_natToChars (n : Nat) : parseSize (natToChars n) = some n := by
  rw [parseSize]
  rw [if_pos ⟨natToChars_ne_nil n, List.all_eq_true.mpr (natToChars_digits n)⟩]
  rw [natToChars_val]

theorem hexEncode_no (bs : Bytes) :
    ' ' ∉ hexEncode bs ∧ ':' ∉ hexEncode bs ∧ ',' ∉ hexEncode bs ∧
      '!' ∉ hexEncode bs := by
  refine ⟨fun h => ?_, fun h => ?_, fun h => ?_, fun h => ?_⟩
  · exact (hexChars_ok _ (hexEncode_chars bs _ h)).1 rfl
  · exact (hexChars_ok _ (hexEncode_chars bs _ h)).2.1 rfl
  · exact (hexChars_ok _ (hexEncode_chars bs _ h)).2.2.1 rfl
  · exact (hexChars_ok _ (hexEncode_chars bs _ h)).2.2.2 rfl

theorem natToChars_no (n : Nat) :
    ' ' ∉ natToChars n ∧ ':' ∉ natToChars n ∧ ',' ∉ natToChars n ∧
      '!' ∉ natToChars n := by
  refine ⟨fun h => ?_, fun h => ?_, fun h => ?_, fun h => ?_⟩
  · exact (isDigit_prop _ (natToChars_digits n _ h)).1 rfl
  · exact (isDigit_prop _ (natToChars_digits n _ h)).2.1 rfl
  · exact (isDigit_prop _ (natToChars_digits n _ h)).2.2.1 rfl
  · exact (isDigit_prop _ (natToChars_digits n _ h)).2.2.2 rfl

theorem chunkToken_chars (p : Bytes × Nat) :
    ∀ c ∈ chunkToken p,
      c ∈ hexEncode p.1 ∨ c = ':' ∨ c ∈ natToChars p.2 := by
  intro c hc
  simp only [chunkToken, List.mem_append, List.mem_cons] at hc
  tauto

theorem chunkToken_no_comma (p : Bytes × Nat) : ',' ∉ chunkToken p := by
  intro h
  rcases chunkToken_chars p ',' h with h1 | h1 | h1
  · exact (hexEncode_no p.1).2.2.1 h1
  · exact absurd h1 (by decide)
  · exact (natToChars_no p.2).2.2.1 h1

theorem chunkToken_no_space (p : Bytes × Nat) : ' ' ∉ chunkToken p := by
  intro h
  rcases chunkToken_chars p ' ' h with h1 | h1 | h1
  · exact (hexEncode_no p.1).1 h1
  · exact absurd h1 (by decide)
  · exact (natToChars_no p.2).1 h1

theorem chunkToken_no_bang (p : Bytes × Nat) : '!' ∉ chunkToken p := by
  intro h
  rcases chunkToken_chars p '!' h with h1 | h1 | h1
  · exact (hexEncode_no p.1).2.2.2 h1
  · exact absurd h1 (by decide)
  · exact (natToChars_no p.2).2.2.2 h1

theorem chunkToken_ne_nil (p : Bytes × Nat) : chunkToken p ≠ [] := by
  simp [chunkToken]

theorem pyJoin1_chars (sep : Char) (ts : List (List Char)) :
    ∀ c ∈ pyJoin1 sep ts, c = sep ∨ ∃ t ∈ ts, c ∈ t := by
  induction ts with
  | nil => simp [pyJoin1]
  | cons x xs ih =>
      cases xs with
      | nil =>
          intro c hc
          right
          exact ⟨x, by simp, by simpa [pyJoin1] using hc⟩
      | cons y ys =>
          intro c hc
          rw [show pyJoin1 sep (x :: y :: ys) = x ++ sep :: pyJoin1 sep (y :: ys)
            from rfl] at hc
          simp only [List.mem_append, List.mem_cons] at hc
          rcases hc with hc | hc | hc
          · exact Or.inr ⟨x, by simp, hc⟩
          · exact Or.inl hc
          · rcases ih c hc with h | ⟨t, ht, hct⟩
            · exact Or.inl h
            · exact Or.inr ⟨t, by simp [ht], hct⟩

theorem chunksField_no_space (result : List (Bytes × Nat)) :
    ' ' ∉ pyJoin1 ',' (result.map chunkToken) := by
  intro h
  rcases pyJoin1_chars ',' _ _ h with h1 | ⟨t, ht, hct⟩
  · exact absurd h1 (by decide)
  · obtain ⟨p, _, rfl⟩ := List.mem_map.mp ht
    exact chunkToken_no_space p hct

theorem chunksField_no_bang (result : List (Bytes × Nat)) :
    '!' ∉ pyJoin1 ',' (result.map chunkToken) := by
  intro h
  rcases pyJoin1_chars ',' _ _ h with h1 | ⟨t, ht, hct⟩
  · exact absurd h1 (by decide)
  · obtain ⟨p, _, rfl⟩ := List.mem_map.mp ht
    exact chunkToken_no_bang p hct

theorem pySplitOn1_chunkToken (p : Bytes × Nat) :
    pySplitOn1 ':' (chunkToken p) = [hexEncode p.1, natToChars p.2] := by
  rw [chunkToken, pySplitOn1_append ':' _ _ (hexEncode_no p.1).2.1,
    pySplitOn1_of_no_sep ':' _ (natToChars_no p.2).2.1]

theorem parseChunkTokens_map (result : List (Bytes × Nat)) :
    parseChunkTokens (result.map chunkToken) =
      some (result.map (fun p => (hexEncode p.1, p.2))) := by
  induction result with
  | nil => rfl
  | cons r rs ih =>
      rw [List.map_cons, parseChunkTokens, pySplitOn1_chunkToken]
      simp only [parseSize_natToChars, ih, List.map_cons]

theorem parse_chunks_formatted (alg_name : List Char) (result : List (Bytes × Nat))
    (ha2 : '!' ∉ alg_name) :
    parse_chunks (alg_name ++ '!' :: pyJoin1 ',' (result.map chunkToken)) =
      some (alg_name, result.map (fun p => (hexEncode p.1, p.2))) := by
  have hsplit2 : pySplitOn1 '!' (alg_name ++ '!' :: pyJoin1 ',' (result.map chunkToken)) =
      [alg_name, pyJoin1 ',' (result.map chunkToken)] := by
    rw [pySplitOn1_append '!' _ _ ha2,
      pySplitOn1_of_no_sep '!' _ (chunksField_no_bang result)]
  simp only [parse_chunks, hsplit2, List.length_cons, List.length_nil,
    List.getD_cons_succ, List.getD_cons_zero, List.headI, if_true]
  rcases result with _ | ⟨r, rs⟩
  · simp [pyJoin1]
  · have hne : pyJoin1 ',' ((r :: rs).map chunkToken) ≠ [] := by
      rw [List.map_cons]
      cases hmap : rs.map chunkToken with
      | nil =>
          simp only [pyJoin1]
          exact chunkToken_ne_nil r
      | cons y ys =>
          rw [show pyJoin1 ',' (chunkToken r :: y :: ys) =
            chunkToken r ++ ',' :: pyJoin1 ',' (y :: ys) from rfl]
          simp
    rw [if_neg hne]
    have htokens : pySplitOn1 ',' (pyJoin1 ',' ((r :: rs).map chunkToken)) =
        (r :: rs).map chunkToken :=
      pySplitOn1_pyJoin1 ',' _ (by simp) (by
        intro t ht
        obtain ⟨p, _, rfl⟩ := List.mem_map.mp ht
        exact chunkToken_no_comma p)
    rw [htokens]
    have hfilter : ((r :: rs).map chunkToken).filter (· ≠ []) =
        (r :: rs).map chunkToken := by
      rw [List.filter_eq_self]
      intro t ht
      obtain ⟨p, _, rfl⟩ := List.mem_map.mp ht
      simp [chunkToken_ne_nil p]
    rw [hfilter, parseChunkTokens_map]

theorem parse_line_formatted (ck path field alg : List Char)
    (cs : List (List Char × Nat))
    (hck : ' ' ∉ ck) (hp : path.getLast? ≠ some ' ') (hfield : ' ' ∉ field)
    (hpc : parse_chunks field = some (alg, cs)) :
    parse_line (ck ++ ' ' :: ' ' :: (path ++ ' ' :: ' ' :: field)) =
      some ⟨ck, path, alg, cs⟩ := by
  have hsplit : pySplitSS (ck ++ ' ' :: ' ' :: (path ++ ' ' :: ' ' :: field)) =
      ck :: (pySplitSS path ++ [field]) := by
    rw [pySplitSS_append_sep _ _ hck, pySplitSS_append_last path field hp hfield]
  obtain ⟨m0, M', hM⟩ := List.exists_cons_of_ne_nil (pySplitSS_ne_nil path)
  have hjoin := pyJoinSS_pySplitSS path
  rw [hM] at hsplit hjoin
  have hlen : (ck :: ((m0 :: M') ++ [field])).length = M'.length + 3 := by simp
  have hlast : ((ck :: ((m0 :: M') ++ [field])).getLast?).getD [] = field := by
    have e : ck :: ((m0 :: M') ++ [field]) = (ck :: m0 :: M') ++ [field] := by simp
    rw [e, List.getLast?_concat]
    rfl
  have hpathpiece :
      (if 3 < (ck :: ((m0 :: M') ++ [field])).length then
        pyJoinSS (((ck :: ((m0 :: M') ++ [field])).drop 1).dropLast)
      else (ck :: ((m0 :: M') ++ [field])).getD 1 []) = path := by
    rcases M' with _ | ⟨m1, M''⟩
    · rw [if_neg (by rw [hlen]; simp)]
      exact hjoin
    · rw [if_pos (by rw [hlen]; simp)]
      have hdrop : ((ck :: ((m0 :: m1 :: M'') ++ [field])).drop 1).dropLast =
          m0 :: m1 :: M'' := by
        rw [List.drop_one, List.tail_cons, List.dropLast_concat]
      rw [hdrop]
      exact hjoin
  rw [parse_line.eq_def]
  simp only [hsplit, hlast, hpc, hpathpiece]
  rw [if_neg (by rw [hlen]; omega)]
  rfl

/-- Claim C2, amended: parsing the formatted line returns exactly the
record — same file digest (hex-encoded), path, algorithm name and
`(hex digest, length)` chunk list — for every hasher, every chunk list,
every algorithm id (by the grammar an algorithm id contains no space and
no `'!'`), and every path that does not end with a space character.
(A path ending with a space breaks the greedy two-space split, as the
counterexample shows and as the source's own design notes concede.) -/
theorem C2_roundtrip_amended (H : Bytes → Bytes) (path alg_name : List Char)
    (result : List (Bytes × Nat))
    (hp : path.getLast? ≠ some ' ')
    (ha1 : ' ' ∉ alg_name) (ha2 : '!' ∉ alg_name) :
    parse_line (format_a_result H path result alg_name) =
      some ⟨hexEncode (list_hash H (result.map Prod.fst)), path, alg_name,
        result.map (fun p => (hexEncode p.1, p.2))⟩ := by
  have hfieldns : ' ' ∉ alg_name ++ '!' :: pyJoin1 ',' (result.map chunkToken) := by
    intro h
    simp only [List.mem_append, List.mem_cons] at h
    rcases h with h | h | h
    · exact ha1 h
    · exact absurd h (by decide)
    · exact chunksField_no_space result h
  rw [format_a_result]
  exact parse_line_formatted _ path _ alg_name _
    (hexEncode_no _).1 hp hfieldns
    (parse_chunks_formatted alg_name result ha2)

theorem C2_roundtrip_amended_witness :
    ("a  b".toList.getLast? ≠ some ' ') ∧ (' ' ∉ "fck4sha2".toList) ∧
    ('!' ∉ "fck4sha2".toList) ∧
    parse_line (format_a_result (fun _ => [171]) "a  b".toList [([205], 5)]
        "fck4sha2".toList) =
      some ⟨hexEncode (list_hash (fun _ => [171]) ([([205], 5)].map Prod.fst)),
        "a  b".toList, "fck4sha2".toList,
        [(([205] : Bytes), 5)].map (fun p => (hexEncode p.1, p.2))⟩ :=
  ⟨by decide, by decide, by decide,
    C2_roundtrip_amended (fun _ => [171]) "a  b".toList "fck4sha2".toList
      [([205], 5)] (by decide) (by decide) (by decide)⟩

/-- Claim C2 counterexample: a path ending with a space (here `"a "`) does
not round-trip: the greedy two-space split absorbs the path's trailing
space into the separator, so the parsed path is `"a"` and the parsed
algorithm name gains a leading space. -/
theorem C2_roundtrip_counterexample :
    parse_line (format_a_result (fun _ => []) "a ".toList [] "fck4sha2".toList) ≠
      some ⟨hexEncode (list_hash (fun _ => [])
          (([] : List (Bytes × Nat)).map Prod.fst)),
        "a ".toList, "fck4sha2".toList,
        ([] : List (Bytes × Nat)).map (fun p => (hexEncode p.1, p.2))⟩ := by
  decide

/-- Claim C7, amended (characterization of `parse_chunksums`): blank lines
(after `strip`) are ignored; the well-formed lines before the first
malformed one are parsed and yielded in order; but a malformed line makes
the reader raise (second component `some ()`) instead of being skipped:
nothing after the first malformed line is processed. -/
theorem C7_parse_chunksums_amended (lines : List (List Char)) :
    parse_chunksums lines =
      ((((lines.map pyStrip).filter (· ≠ [])).takeWhile
          (fun l => (parse_line l).isSome)).filterMap parse_line,
       if ((lines.map pyStrip).filter (· ≠ [])).all
          (fun l => (parse_line l).isSome) then none else some ()) := by
  induction lines with
  | nil => rfl
  | cons l ls ih =>
      by_cases hs : pyStrip l = []
      · simp only [parse_chunksums, hs, if_pos rfl, ih, List.map_cons,
          List.filter_cons]
        simp [hs]
      · cases hpl : parse_line (pyStrip l) with
        | none =>
            simp only [parse_chunksums, hs, if_neg hs, hpl, List.map_cons,
              List.filter_cons]
            simp [hs, hpl]
        | some r =>
            simp only [parse_chunksums, hs, if_neg hs, hpl, List.map_cons,
              List.filter_cons, ih]
            simp [hs, hpl]

/-- Claim C7 counterexample: on a file whose second line is malformed
(`"xx"`), `parse_chunksums` yields the first record and then raises
(`parse_line` hits an `IndexError`; there is no handler), instead of
skipping the malformed line and continuing. -/
theorem C7_parse_chunksums_counterexample :
    parse_chunksums ["sum1  ./a  fck0sha2!".toList, "xx".toList] =
      ([⟨"sum1".toList, "./a".toList, "fck0sha2".toList, []⟩], some ()) := by
  decide

theorem take_one_of_take_four {n : List Char} {a b c d : Char}
    (h : n.take 4 = [a, b, c, d]) : n.take 1 = [a] := by
  have := congrArg (List.take 1) h
  rwa [List.take_take] at this

theorem take_one_of_take_seven {n : List Char} {a b c d e f g : Char}
    (h : n.take 7 = [a, b, c, d, e, f, g]) : n.take 1 = [a] := by
  have := congrArg (List.take 1) h
  rwa [List.take_take] at this

/-- Claim C8, amended: `get_hasher(name)` succeeds exactly when the
lower-cased name BEGINS with `sha2` not immediately followed by a digit,
or begins with `blake2b` (resp. `blake2s`) with either no digit suffix or
a digit suffix whose value lies in the constructor's accepted digest-size
range 1–64 (resp. 1–32) — `re.match` is anchored at the start only, so
trailing garbage after the match is ignored, not rejected, while an
out-of-range suffix such as `blake2b0` or `blake2b99` makes the blake2
constructor raise `ValueError`.  (`sha2` → SHA-256 with no suffix
permitted; `sha256`, `blake2`, `blake2x` still fail.) -/
theorem C8_get_hasher_amended (name : List Char) :
    (get_hasher name).isSome ↔
      ((pyLower name).take 4 = "sha2".toList ∧
        ((pyLower name).drop 4).takeWhile Char.isDigit = []) ∨
      ((pyLower name).take 7 = "blake2b".toList ∧
        (((pyLower name).drop 7).takeWhile Char.isDigit = [] ∨
          (1 ≤ digitsVal (((pyLower name).drop 7).takeWhile Char.isDigit) ∧
            digitsVal (((pyLower name).drop 7).takeWhile Char.isDigit) ≤ 64))) ∨
      ((pyLower name).take 7 = "blake2s".toList ∧
        (((pyLower name).drop 7).takeWhile Char.isDigit = [] ∨
          (1 ≤ digitsVal (((pyLower name).drop 7).takeWhile Char.isDigit) ∧
            digitsVal (((pyLower name).drop 7).takeWhile Char.isDigit) ≤ 32))) := by
  rw [get_hasher.eq_def, hashNameMatch.eq_def]
  by_cases h1 : (pyLower name).take 4 = "sha2".toList
  · have hnb : ¬ (pyLower name).take 7 = "blake2b".toList := by
      intro hc
      have e1 := take_one_of_take_four h1
      have e2 := take_one_of_take_seven hc
      rw [e1] at e2
      exact absurd e2 (by decide)
    have hns : ¬ (pyLower name).take 7 = "blake2s".toList := by
      intro hc
      have e1 := take_one_of_take_four h1
      have e2 := take_one_of_take_seven hc
      rw [e1] at e2
      exact absurd e2 (by decide)
    rw [if_pos h1]
    by_cases h2 : ((pyLower name).drop 4).takeWhile Char.isDigit = []
    · simp [h2, h1, hnb, hns]
    · simp [h2, h1, hnb, hns]
      exact ⟨fun hc => absurd hc hnb, fun hc => absurd hc hns⟩
  · rw [if_neg h1]
    by_cases h2 : (pyLower name).take 7 = "blake2b".toList
    · have hns : ¬ (pyLower name).take 7 = "blake2s".toList := by
        intro hc
        rw [h2] at hc
        exact absurd hc (by decide)
      rw [if_pos h2]
      by_cases h3 : ((pyLower name).drop 7).takeWhile Char.isDigit = []
      · simp [h1, h2, h3, hns]
      · by_cases h4 :
            1 ≤ digitsVal (((pyLower name).drop 7).takeWhile Char.isDigit) ∧
              digitsVal (((pyLower name).drop 7).takeWhile Char.isDigit) ≤ 64
        · simp [h1, h2, h3, h4, hns, mkHasherSized, hasherDigestMax]
        · simp [h1, h2, h3, h4, hns, mkHasherSized, hasherDigestMax]
          exact fun hc => absurd hc h1
    · rw [if_neg h2]
      by_cases h3 : (pyLower name).take 7 = "blake2s".toList
      · rw [if_pos h3]
        by_cases h4 : ((pyLower name).drop 7).takeWhile Char.isDigit = []
        · simp [h1, h2, h3, h4]
        · by_cases h5 :
              1 ≤ digitsVal (((pyLower name).drop 7).takeWhile Char.isDigit) ∧
                digitsVal (((pyLower name).drop 7).takeWhile Char.isDigit) ≤ 32
          · simp [h1, h2, h3, h4, h5, mkHasherSized, hasherDigestMax]
          · simp [h1, h2, h3, h4, h5, mkHasherSized, hasherDigestMax]
            exact fun hc => absurd hc h1
      · rw [if_neg h3]
        simp [h1, h2, h3]
        exact ⟨fun hc => absurd hc h1, fun hc => absurd hc h2,
          fun hc => absurd hc h3⟩

/-- Claim C8 counterexample: the claim demands failure for any string with
trailing garbage after a valid name, but `get_hasher("sha2x")` succeeds
(returning the default SHA-256 hasher): the regex is only anchored at the
start. -/
theorem C8_get_hasher_counterexample :
    get_hasher "sha2x".toList = some ⟨HashFamily.sha2, none⟩ := by decide

theorem chunkSizeMk_pow (base d : Nat) (hb : 256 ≤ base) (h4 : base % 4 = 0) :
    chunkSizeMk (base * 2 ^ d) =
      some ⟨base * 2 ^ d, base * 2 ^ d / 4, base * 2 ^ d * 4⟩ := by
  have hpos : 0 < 2 ^ d := Nat.pos_pow_of_pos d (by omega)
  have hge : 256 ≤ base * 2 ^ d :=
    le_trans hb (Nat.le_mul_of_pos_right base hpos)
  have hmod : (base * 2 ^ d) % 4 = 0 := by
    rw [Nat.mul_mod, h4]
    simp
  rw [chunkSizeMk]
  rw [if_neg (by simp only [AVERAGE_MIN]; omega), if_neg (by simp [hmod])]

theorem get_chunker_cons (c1 c2 : Char) (rest : List Char) :
    get_chunker (c1 :: c2 :: rest) =
      if (c1.toLower = 'k' ∨ c1.toLower = 'm' ∨ c1.toLower = 'g') ∧
          c2.isDigit then
        some ⟨unitBase c1.toLower * 2 ^ (c2.toNat - 48),
          unitBase c1.toLower * 2 ^ (c2.toNat - 48) / 4,
          unitBase c1.toLower * 2 ^ (c2.toNat - 48) * 4⟩
      else none := by
  have lhs0 : get_chunker (c1 :: c2 :: rest) =
      if (c1.toLower = 'k' ∨ c1.toLower = 'm' ∨ c1.toLower = 'g') ∧
          c2.isDigit then
        match UNITS c1.toLower with
        | none => none
        | some co =>
            match chunkSizeMul co (2 ^ (c2.toNat - 48)) with
            | none => none
            | some s => some ⟨s.avg, s.min, s.max⟩
      else none := rfl
  rw [lhs0]
  by_cases hcond : (c1.toLower = 'k' ∨ c1.toLower = 'm' ∨ c1.toLower = 'g') ∧
      c2.isDigit
  · rw [if_pos hcond, if_pos hcond]
    rcases hcond.1 with hu | hu | hu
    · rw [hu]
      have h1 : UNITS 'k' = some ⟨1024, 256, 4096⟩ := by decide
      have h2 : chunkSizeMul ⟨1024, 256, 4096⟩ (2 ^ (c2.toNat - 48)) =
          some ⟨1024 * 2 ^ (c2.toNat - 48), 1024 * 2 ^ (c2.toNat - 48) / 4,
            1024 * 2 ^ (c2.toNat - 48) * 4⟩ := by
        rw [chunkSizeMul]
        exact chunkSizeMk_pow 1024 _ (by omega) (by decide)
      have h3 : unitBase 'k' = 1024 := rfl
      simp only [h1, h2, h3]
    · rw [hu]
      have h1 : UNITS 'm' = some ⟨1024 * 1024, 1024 * 1024 / 4,
          1024 * 1024 * 4⟩ := by decide
      have h2 : chunkSizeMul ⟨1024 * 1024, 1024 * 1024 / 4, 1024 * 1024 * 4⟩
          (2 ^ (c2.toNat - 48)) =
          some ⟨1024 * 1024 * 2 ^ (c2.toNat - 48),
            1024 * 1024 * 2 ^ (c2.toNat - 48) / 4,
            1024 * 1024 * 2 ^ (c2.toNat - 48) * 4⟩ := by
        rw [chunkSizeMul]
        exact chunkSizeMk_pow (1024 * 1024) _ (by omega) (by decide)
      have h3 : unitBase 'm' = 1024 * 1024 := rfl
      simp only [h1, h2, h3]
    · rw [hu]
      have h1 : UNITS 'g' = some ⟨1024 * 1024 * 1024, 1024 * 1024 * 1024 / 4,
          1024 * 1024 * 1024 * 4⟩ := by decide
      have h2 : chunkSizeMul ⟨1024 * 1024 * 1024, 1024 * 1024 * 1024 / 4,
          1024 * 1024 * 1024 * 4⟩ (2 ^ (c2.toNat - 48)) =
          some ⟨1024 * 1024 * 1024 * 2 ^ (c2.toNat - 48),
            1024 * 1024 * 1024 * 2 ^ (c2.toNat - 48) / 4,
            1024 * 1024 * 1024 * 2 ^ (c2.toNat - 48) * 4⟩ := by
        rw [chunkSizeMul]
        exact chunkSizeMk_pow (1024 * 1024 * 1024) _ (by omega) (by decide)
      have h3 : unitBase 'g' = 1024 * 1024 * 1024 := rfl
      simp only [h1, h2, h3]
  · rw [if_neg hcond, if_neg hcond]

/-- Claim C9, amended: the size-token parser succeeds exactly when the
FIRST TWO characters of the token are a `[kmg]` unit (case-insensitively)
followed by a decimal digit — `re.match` is anchored at the start only, so
a longer token with a valid two-character head (such as `"k12"`) is
accepted rather than rejected; on success the chunker's parameters are
`avg = base(unit) * 2^power` with `base(k) = 1024`, `base(m) = 1024²`,
`base(g) = 1024³`, `min = avg/4` and `max = avg*4` (the `ChunkSize`
constructor checks never fire for these values). -/
theorem C9_get_chunker_amended (token : List Char) :
    get_chunker token =
      match token with
      | c1 :: c2 :: _ =>
          if (c1.toLower = 'k' ∨ c1.toLower = 'm' ∨ c1.toLower = 'g') ∧
              c2.isDigit then
            some ⟨unitBase c1.toLower * 2 ^ (c2.toNat - 48),
              unitBase c1.toLower * 2 ^ (c2.toNat - 48) / 4,
              unitBase c1.toLower * 2 ^ (c2.toNat - 48) * 4⟩
          else none
      | _ => none := by
  rcases token with _ | ⟨c1, _ | ⟨c2, rest⟩⟩
  · rfl
  · rfl
  · exact get_chunker_cons c1 c2 rest

/-- Claim C9 counterexample: the claim demands failure (`BadSizeToken`)
for every token other than a two-character `[kmg][0-9]` token, but the
three-character token `"k12"` is accepted (`re.match` ignores the trailing
`'2'`) and yields the `k1` chunker. -/
theorem C9_get_chunker_counterexample :
    get_chunker "k12".toList = some ⟨2048, 512, 8192⟩ := by decide

/-- Claim C6, amended: in the single-process orchestrator, a file matched
by the skip predicate is silently skipped (no line, progress still
advanced) and the walk continues; but a path that cannot be opened or read
is NOT contained: `walk` has no exception handler, so the error
propagates and terminates the run, after the lines of the preceding
non-skipped readable paths have been flushed — in particular no line is
emitted for any later path.  When every enumerated path is readable (or
skipped), the walk completes with exactly one line per non-skipped
path, in order. -/
theorem C6_walk_amended (cut : Bytes → Bool) (H : Bytes → Bytes)
    (alg : List Char) (skip : Path → Bool) (fs : Path → FileStat) :
    (∀ paths : List Path,
      (∀ p ∈ paths, fs p ≠ .absent ∧ (fs p = .unreadable → skip p = true)) →
        walk cut H alg skip fs paths =
          (paths.filterMap (walkLine cut H alg skip fs), none)) ∧
    (∀ (pre : List Path) (p : Path) (post : List Path),
      (∀ q ∈ pre, fs q ≠ .absent ∧ (fs q = .unreadable → skip q = true)) →
      (fs p = .absent ∨ (fs p = .unreadable ∧ skip p = false)) →
        walk cut H alg skip fs (pre ++ p :: post) =
          (pre.filterMap (walkLine cut H alg skip fs), some ())) := by
  constructor
  · intro paths
    induction paths with
    | nil => intro _; rfl
    | cons q qs ih =>
        intro h
        obtain ⟨ha, hu⟩ := h q (by simp)
        have hrest : ∀ p ∈ qs, fs p ≠ FileStat.absent ∧
            (fs p = FileStat.unreadable → skip p = true) :=
          fun p hp => h p (List.mem_cons_of_mem q hp)
        cases hfs : fs q with
        | absent => exact absurd hfs ha
        | unreadable =>
            have hsk := hu hfs
            simp only [walk, compute_one_file, hfs, hsk, if_true,
              List.filterMap_cons, walkLine]
            exact ih hrest
        | readable content =>
            cases hsk : skip q with
            | true =>
                simp only [walk, compute_one_file, hfs, hsk, if_true,
                  List.filterMap_cons, walkLine]
                exact ih hrest
            | false =>
                simp only [walk, compute_one_file, hfs, hsk,
                  Bool.false_eq_true, if_false, List.filterMap_cons, walkLine]
                rw [ih hrest]
  · intro pre p post hpre herr
    induction pre with
    | nil =>
        have hcof : compute_one_file cut H alg skip fs p = .error () := by
          rcases herr with h | ⟨h1, h2⟩
          · rw [compute_one_file.eq_def, h]
          · rw [compute_one_file.eq_def, h1]
            simp [h2]
        rw [List.nil_append]
        show (match compute_one_file cut H alg skip fs p with
          | Except.error _ => (([] : List (List Char)), some ())
          | Except.ok none => walk cut H alg skip fs post
          | Except.ok (some l) =>
              (l :: (walk cut H alg skip fs post).1,
                (walk cut H alg skip fs post).2)) =
          (List.filterMap (walkLine cut H alg skip fs) [], some ())
        rw [hcof]
        rfl
    | cons q qs ih =>
        obtain ⟨ha, hu⟩ := hpre q (by simp)
        have hrest := ih (fun r hr => hpre r (List.mem_cons_of_mem q hr))
        cases hfs : fs q with
        | absent => exact absurd hfs ha
        | unreadable =>
            have hsk := hu hfs
            simp only [List.cons_append, walk, compute_one_file, hfs, hsk,
              if_true, List.filterMap_cons, walkLine, List.append_eq]
            exact hrest
        | readable content =>
            cases hsk : skip q with
            | true =>
                simp only [List.cons_append, walk, compute_one_file, hfs, hsk,
                  if_true, List.filterMap_cons, walkLine, List.append_eq]
                exact hrest
            | false =>
                simp only [List.cons_append, walk, compute_one_file, hfs, hsk,
                  Bool.false_eq_true, if_false, List.filterMap_cons, walkLine,
                  List.append_eq]
                rw [hrest]

theorem C6_walk_amended_witness :
    ((∀ p ∈ [("a".toList : Path)],
        (fun q : Path => if q = "a".toList then FileStat.readable [104]
          else FileStat.absent) p ≠ .absent ∧
        ((fun q : Path => if q = "a".toList then FileStat.readable [104]
          else FileStat.absent) p = .unreadable → (fun _ : Path => false) p = true)) ∧
      walk (fun _ => false) (fun _ => []) "fck4sha2".toList (fun _ => false)
        (fun q : Path => if q = "a".toList then FileStat.readable [104]
          else FileStat.absent) ["a".toList] =
        ([("a".toList : Path)].filterMap
          (walkLine (fun _ => false) (fun _ => []) "fck4sha2".toList
            (fun _ => false)
            (fun q : Path => if q = "a".toList then FileStat.readable [104]
              else FileStat.absent)), none)) ∧
    ((∀ q ∈ ([] : List Path), True) ∧
      walk (fun _ => false) (fun _ => []) "fck4sha2".toList (fun _ => false)
        (fun q : Path => if q = "a".toList then FileStat.readable [104]
          else FileStat.absent) ([] ++ "b".toList :: []) =
        (([] : List Path).filterMap
          (walkLine (fun _ => false) (fun _ => []) "fck4sha2".toList
            (fun _ => false)
            (fun q : Path => if q = "a".toList then FileStat.readable [104]
              else FileStat.absent)), some ())) :=
  ⟨⟨by decide,
    (C6_walk_amended (fun _ => false) (fun _ => []) "fck4sha2".toList
      (fun _ => false)
      (fun q : Path => if q = "a".toList then FileStat.readable [104]
        else FileStat.absent)).1 ["a".toList] (by decide)⟩,
   ⟨fun q h => trivial,
    (C6_walk_amended (fun _ => false) (fun _ => []) "fck4sha2".toList
      (fun _ => false)
      (fun q : Path => if q = "a".toList then FileStat.readable [104]
        else FileStat.absent)).2 [] "b".toList [] (by simp)
      (Or.inl (by decide))⟩⟩

/-- Claim C6 counterexample: with the first enumerated path missing and
the second readable, `walk` terminates with an uncaught error and emits no
line at all — the unreadable file is not skipped, and processing of the
remaining paths does not continue. -/
theorem C6_error_containment_counterexample :
    walk (fun _ => false) (fun _ => []) "fck4sha2".toList (fun _ => false)
      (fun q : Path => if q = "a".toList then FileStat.absent
        else FileStat.readable [104])
      ["a".toList, "b".toList] = ([], some ()) := by
  decide

/-- Claim C10 (empty-input no-op): `compute` with an empty path list
returns immediately: nothing is written to the sink and no error is
raised. -/
theorem C10_compute_empty (cut : Bytes → Bool) (H : Bytes → Bytes)
    (alg : List Char) (skip : Path → Bool) (fs : Path → FileStat) :
    compute cut H alg skip fs [] = ([], none) := rfl

/-- Claim C5 (code bug): the multi-process worker calls
`compute_one_file` with the keyword arguments `update_progress` and
`bar_position`, which the `compute_one_file` of `src/chunksum/chunksum.py`
does not declare — the call raises `TypeError` for every dequeued path, so
the multi-process orchestrator writes no chunksums line (and its drain
loop never sees the crashed worker go idle), contradicting the claimed
equality with the single-process output (and `mp.py`'s own doctest). -/
theorem C5_mp_consumer_signature_mismatch :
    kwargsAccepted compute_one_file_params mp_consumer_call_kwargs = false ∧
      "update_progress" ∉ compute_one_file_params ∧
      "bar_position" ∉ compute_one_file_params := by
  decide

end Chunksum
